import Mathlib

/-!
Verification of the outbound federation dispatcher (`FederationSender` in
`synapse/federation/sender/__init__.py`).

The Python class is shallowly embedded: each method becomes a pure Lean
function from an explicit state record (the instance attributes it touches)
to a new state together with the list of calls it makes on per-destination
queues.  Python `dict`s are modelled as association lists accessed through
`aget`/`aset`, Python `set`s as duplicate-free lists, exceptions as explicit
outcome parameters, and the one-shot timers armed via `clock.call_later`
as a list of (absolute fire time, room) pairs.
-/

namespace Synapse

/-- Lookup in an association list modelling a Python dict. -/
def aget {α : Type} : List (String × α) → String → Option α
  | [], _ => none
  | p :: ps, k => if p.1 = k then some p.2 else aget ps k

/-- Update / insert in an association list modelling `d[k] = v`. -/
def aset {α : Type} (m : List (String × α)) (k : String) (v : α) :
    List (String × α) :=
  (k, v) :: m.filter (fun p => p.1 ≠ k)

/-- Remove a key, modelling `d.pop(k)` discarding the entry. -/
def apopKey {α : Type} (m : List (String × α)) (k : String) :
    List (String × α) :=
  m.filter (fun p => p.1 ≠ k)

/-- An ephemeral datagram, as in `synapse.federation.units.Edu`. -/
structure Edu where
  origin : String
  destination : String
  edu_type : String
  content : String
deriving DecidableEq

/-- A read receipt, as in `synapse.types.ReadReceipt`. -/
structure ReadReceipt where
  room_id : String
  receipt_type : String
  user_id : String
  event_ids : List String
  data : String
deriving DecidableEq

/-- Per-user presence snapshot (`synapse.storage.presence.UserPresenceState`);
only the identity and an abstract payload matter here. -/
structure UserPresenceState where
  user_id : String
  state : String
deriving DecidableEq

/-- A hashable Python value usable as an EDU clobbering key.  We carry the
two shapes (int, str) needed to observe Python truthiness in `if key:`. -/
inductive PyKey where
  | int (n : Int)
  | str (t : String)
deriving DecidableEq

/-- Python truthiness of a key value: `0` and `""` are falsy. -/
def pyTruthy : PyKey → Bool
  | PyKey.int n => n != 0
  | PyKey.str t => t != ""

/-- An event (PDU) with the fields `handle_event` reads; the two
`internal_metadata` accessors are inlined as plain fields. -/
structure Event where
  event_id : String
  room_id : String
  sender : String
  prev_event_ids : List String
  send_on_behalf_of : Option String
  should_proactively_send : Bool
deriving DecidableEq

/-- A call made on some `PerDestinationQueue` (or on the registry to kick a
queue).  Every constructor records the destination the call is made to. -/
inductive QueueAction where
  | enqueuePdu (destination : String) (event_id : String) (order : Nat)
  | enqueueEdu (destination : String) (edu : Edu)
  | enqueueKeyedEdu (destination : String) (edu : Edu) (key : PyKey)
  | enqueuePresence (destination : String) (states : List UserPresenceState)
  | enqueueReceipt (destination : String) (receipt : ReadReceipt)
  | flushReceiptsForRoom (destination : String) (room_id : String)
  | attemptNewTransaction (destination : String)
deriving DecidableEq

/-- The destination a queue call is addressed to. -/
def actionDest : QueueAction → String
  | QueueAction.enqueuePdu d _ _ => d
  | QueueAction.enqueueEdu d _ => d
  | QueueAction.enqueueKeyedEdu d _ _ => d
  | QueueAction.enqueuePresence d _ => d
  | QueueAction.enqueueReceipt d _ => d
  | QueueAction.flushReceiptsForRoom d _ => d
  | QueueAction.attemptNewTransaction d => d

/-- True iff no call in the list is addressed to `server`. -/
def avoidsSelf (server : String) (as : List QueueAction) : Bool :=
  as.all (fun a => actionDest a != server)

/-- True iff the call is `flush_read_receipts_for_room`. -/
def isFlushAction : QueueAction → Bool
  | QueueAction.flushReceiptsForRoom _ _ => true
  | _ => false

/-- The slice of `FederationSender` state read and written by `_send_pdu`:
the local server name, the `_order` counter and the two Prometheus
counters. -/
structure PduState where
  server_name : String
  order : Nat
  sent_pdus_destination_dist_count : Nat
  sent_pdus_destination_dist_total : Nat
deriving DecidableEq

/-- The destination set `_send_pdu` actually sends to:
`set(destinations)` with `server_name` discarded. -/
def pduFilter (server : String) (destinations : List String) : List String :=
  destinations.dedup.filter (fun d => d ≠ server)

/-- `FederationSender._send_pdu`: draw the next `_order` value (the counter
is bumped unconditionally), drop the local server from the destination set,
return early if nothing is left, otherwise bump both metrics and enqueue the
PDU with that order on every remaining destination's queue. -/
def send_pdu (s : PduState) (pdu : String) (destinations : List String) :
    PduState × List QueueAction :=
  let order := s.order
  let s1 : PduState := { s with order := s.order + 1 }
  let dsts := pduFilter s.server_name destinations
  if dsts = [] then (s1, [])
  else
    ({ s1 with
        sent_pdus_destination_dist_total :=
          s1.sent_pdus_destination_dist_total + dsts.length,
        sent_pdus_destination_dist_count :=
          s1.sent_pdus_destination_dist_count + 1 },
     dsts.map (fun d => QueueAction.enqueuePdu d pdu order))

/-- A sequence of `_send_pdu` invocations, collecting all queue calls. -/
def run_send_pdus : PduState → List (String × List String) →
    PduState × List QueueAction
  | s, [] => (s, [])
  | s, c :: cs =>
    let r1 := send_pdu s c.1 c.2
    let r2 := run_send_pdus r1.1 cs
    (r2.1, r1.2 ++ r2.2)

/-- The orders handed to destination `d`'s `send_pdu` in a call trace. -/
def ordersTo (d : String) (as : List QueueAction) : List Nat :=
  as.filterMap (fun a =>
    match a with
    | QueueAction.enqueuePdu d1 _ o => if d1 = d then some o else none
    | _ => none)

/-- The destinations of the `enqueuePdu` calls in a trace, in order. -/
def pduDests (as : List QueueAction) : List String :=
  as.filterMap (fun a =>
    match a with
    | QueueAction.enqueuePdu d1 _ _ => some d1
    | _ => none)

/-- `FederationSender.handle_event` (the closure inside
`_process_event_queue_loop`): drop events that are neither ours nor sent on
behalf of another server, drop events not flagged for proactive sending,
resolve the hosts in the room at the event's previous events (a resolver
failure is logged and the event skipped), discard the `send_on_behalf_of`
server from the set, and hand the rest to `_send_pdu`.  The resolver is
passed in as a function returning `Except`, mirroring
`state.get_hosts_in_room_at_events` and its possible exception. -/
def handle_event (mine : String → Bool)
    (resolver : String → List String → Except Unit (List String))
    (s : PduState) (e : Event) : PduState × List QueueAction :=
  let sob := e.send_on_behalf_of
  if !(mine e.sender) && sob.isNone then (s, [])
  else if !e.should_proactively_send then (s, [])
  else
    match resolver e.room_id e.prev_event_ids with
    | Except.error _ => (s, [])
    | Except.ok hosts =>
      let destinations := hosts.dedup
      let destinations :=
        match sob with
        | some x => destinations.filter (fun d => d ≠ x)
        | none => destinations
      send_pdu s e.event_id destinations

/-- Modelled from the spec (section 4.3 step 5, properties P3/P4/P5): the
set of destinations that should receive `enqueuePdu` for one event, namely
`hostsInRoomAtEvents(room_id, prev_event_ids)` minus `send_on_behalf_of`
and minus `server_name`, and only when the event is accepted
(`is_mine(sender)` or `send_on_behalf_of` set), proactive sending is on and
the resolver succeeds. -/
def handle_event_dests_spec (mine : String → Bool)
    (resolver : String → List String → Except Unit (List String))
    (server : String) (e : Event) : List String :=
  if (mine e.sender || e.send_on_behalf_of.isSome) && e.should_proactively_send
  then
    match resolver e.room_id e.prev_event_ids with
    | Except.error _ => []
    | Except.ok hosts =>
      (hosts.dedup.filter (fun d =>
        match e.send_on_behalf_of with
        | some x => d ≠ x
        | none => True)).filter (fun d => d ≠ server)
  else []

/-- `FederationSender.send_edu`: look up (or create) the destination queue
from `edu.destination` and dispatch.  The branch mirrors Python's
`if key:`, i.e. truthiness of the key, not its presence. -/
def send_edu (edu : Edu) (key : Option PyKey) : List QueueAction :=
  match key with
  | some k =>
    if pyTruthy k then [QueueAction.enqueueKeyedEdu edu.destination edu k]
    else [QueueAction.enqueueEdu edu.destination edu]
  | none => [QueueAction.enqueueEdu edu.destination edu]

/-- `FederationSender.build_and_send_edu`: refuse to send to ourselves
(info log, no-op), otherwise construct the `Edu` and call `send_edu`. -/
def build_and_send_edu (server_name destination edu_type : String)
    (content : String) (key : Option PyKey) : List QueueAction :=
  if destination = server_name then []
  else
    send_edu
      { origin := server_name, destination := destination,
        edu_type := edu_type, content := content } key

/-- `FederationSender.send_device_messages`: warn and return on the local
server, otherwise kick the destination queue's transmission loop. -/
def send_device_messages (server_name destination : String) :
    List QueueAction :=
  if destination = server_name then []
  else [QueueAction.attemptNewTransaction destination]

/-- `FederationSender.wake_destination`: identical self-check and kick. -/
def wake_destination (server_name destination : String) :
    List QueueAction :=
  if destination = server_name then []
  else [QueueAction.attemptNewTransaction destination]

/-- The presence-related slice of `FederationSender` state. -/
structure PresenceSenderState where
  pending_presence : List (String × UserPresenceState)
  processing_pending_presence : Bool
deriving DecidableEq

/-- The update `self.pending_presence.update({state.user_id: state for state
in states if self.is_mine_id(state.user_id)})`: fold the incoming states
left to right, keeping only local users, so that the last write per
`user_id` wins. -/
def pending_update (mine : String → Bool)
    (pending : List (String × UserPresenceState))
    (states : List UserPresenceState) : List (String × UserPresenceState) :=
  states.foldl
    (fun m st => if mine st.user_id then aset m st.user_id st else m) pending

/-- `FederationSender.send_presence`: no-op when presence is disabled;
merge the new states into `pending_presence` (local users only, last write
wins); return if a batch pass is already running; otherwise set the
singleflight flag, repeatedly drain `pending_presence` into a batch handed
to `_process_presence_inner` until it is empty, and clear the flag in a
`finally` even when the inner processing raises (`inner_ok = false`); a
batch drained when the inner processing raises is lost. -/
def send_presence (use_presence : Bool) (mine : String → Bool)
    (inner_ok : Bool) (s : PresenceSenderState)
    (states : List UserPresenceState) :
    PresenceSenderState × List (List UserPresenceState) :=
  if use_presence = false then (s, [])
  else
    let pend := pending_update mine s.pending_presence states
    if s.processing_pending_presence then
      ({ s with pending_presence := pend }, [])
    else
      if pend = [] then
        ({ pending_presence := [], processing_pending_presence := false }, [])
      else if inner_ok then
        ({ pending_presence := [], processing_pending_presence := false },
         [pend.map Prod.snd])
      else
        ({ pending_presence := [], processing_pending_presence := false }, [])

/-- `FederationSender.send_presence_to_destinations`: no-op on empty states
or disabled presence, otherwise enqueue the states on every destination
queue, skipping the local server. -/
def send_presence_to_destinations (use_presence : Bool) (server_name : String)
    (states : List UserPresenceState) (destinations : List String) :
    List QueueAction :=
  if states = [] ∨ use_presence = false then []
  else
    destinations.filterMap (fun d =>
      if d = server_name then none
      else some (QueueAction.enqueuePresence d states))

/-- `FederationSender._process_presence_inner`: given the
`(destinations, states)` pairs computed by `get_interested_remotes`,
enqueue each state list on each destination queue, skipping the local
server. -/
def process_presence_inner (server_name : String)
    (hosts_and_states : List (List String × List UserPresenceState)) :
    List QueueAction :=
  hosts_and_states.flatMap (fun p =>
    p.1.filterMap (fun d =>
      if d = server_name then none
      else some (QueueAction.enqueuePresence d p.2)))

/-- The event-loop slice of `FederationSender` state. -/
structure EventLoopState where
  is_processing : Bool
  last_poked_id : Int
deriving DecidableEq

/-- `FederationSender._process_event_queue_loop`: a `try` block that sets
`_is_processing`, runs the fetch/fan-out loop (abstracted as `body`, whose
`Except` result records whether the loop raised, e.g. on a store failure),
and a `finally` that clears the flag on every exit path. -/
def process_event_queue_loop
    (body : EventLoopState → EventLoopState × Except Unit Unit)
    (s : EventLoopState) : EventLoopState × Except Unit Unit :=
  let s1 : EventLoopState := { s with is_processing := true }
  let r := body s1
  ({ r.1 with is_processing := false }, r.2)

/-- `FederationSender.notify_new_events`: advance `_last_poked_id` to the
maximum of the old value and `current_id`; if a loop pass is already
running, return; otherwise fire the processing loop (the background
process swallows the loop's exception). -/
def notify_new_events
    (body : EventLoopState → EventLoopState × Except Unit Unit)
    (s : EventLoopState) (current_id : Int) : EventLoopState :=
  let s1 : EventLoopState := { s with
    last_poked_id := max current_id s.last_poked_id }
  if s1.is_processing then s1
  else (process_event_queue_loop body s1).1

/-- The position-tracking slice of `FederationSender` state
(`federation_position` and `_last_ack`). -/
structure PositionState where
  federation_position : Int
  last_ack : Int
deriving DecidableEq

/-- `FederationSender.update_token`: overwrite `federation_position` with
the supplied token, then (under the position linearizer) persist and ack it
and record it in `_last_ack` only when `_last_ack` is still below it. -/
def update_token (s : PositionState) (token : Int) : PositionState :=
  let s1 : PositionState := { s with federation_position := token }
  if s1.last_ack < s1.federation_position then
    { s1 with last_ack := s1.federation_position }
  else s1

/-- `FederationSender.get_current_token`. -/
def get_current_token (s : PositionState) : Int :=
  s.federation_position

/-- A sequence of `update_token` calls, oldest first. -/
def run_update_tokens (s : PositionState) (ts : List Int) : PositionState :=
  ts.foldl update_token s

/-- The read-receipt scheduling slice of `FederationSender` state, together
with a model of `clock.call_later`: `now` is the clock in ms, `interval` is
`_rr_txn_interval_per_room_ms` (kept integral; the claims do not depend on
its fractional part), `pending` is `_queues_awaiting_rr_flush_by_room`
(queues identified by their destination), and `timers` holds the armed
one-shot `_flush_rrs_for_room` calls as (absolute fire time, room) pairs. -/
structure RRState where
  now : Nat
  interval : Nat
  pending : List (String × List String)
  timers : List (Nat × String)
deriving DecidableEq

/-- `FederationSender._schedule_rr_flush_for_room`: arm a one-shot timer
`interval × n_domains` ms from now calling `_flush_rrs_for_room(room_id)`,
and create an empty pending set for the room. -/
def schedule_rr_flush_for_room (s : RRState) (room_id : String)
    (n_domains : Nat) : RRState :=
  { s with
    timers := s.timers ++ [(s.now + s.interval * n_domains, room_id)],
    pending := aset s.pending room_id [] }

/-- Python `set.add` on a set modelled as a duplicate-free list. -/
def setAdd (qs : List String) (d : String) : List String :=
  if d ∈ qs then qs else qs ++ [d]

/-- `FederationSender.send_read_receipt`: resolve the current hosts in the
room (`resolver`), drop the local server, and return if none remain.  If a
flush is already pending for the room (`pending` has an entry), enqueue the
receipt on each domain's queue and register the queue in the pending set;
otherwise schedule the next flush and both enqueue the receipt and flush
immediately on each domain's queue. -/
def send_read_receipt (server_name : String)
    (resolver : String → List String) (s : RRState) (receipt : ReadReceipt) :
    RRState × List QueueAction :=
  let room_id := receipt.room_id
  let domains := (resolver room_id).filter (fun d => d ≠ server_name)
  if domains = [] then (s, [])
  else
    match aget s.pending room_id with
    | some qs =>
      ({ s with pending := aset s.pending room_id (domains.foldl setAdd qs) },
       domains.map (fun d => QueueAction.enqueueReceipt d receipt))
    | none =>
      let s1 := schedule_rr_flush_for_room s room_id domains.length
      (s1,
       domains.flatMap (fun d =>
         [QueueAction.enqueueReceipt d receipt,
          QueueAction.flushReceiptsForRoom d room_id]))

/-- `FederationSender._flush_rrs_for_room` (the timer callback): pop the
room's pending set (`dict.pop` raises on a missing key, modelled as
`none`); if no queues accrued, stop the cycle; otherwise re-arm the timer
for `interval × |queues|` ms with a fresh empty pending set and flush the
room's receipts on every accrued queue. -/
def flush_rrs_for_room (s : RRState) (room_id : String) :
    Option (RRState × List QueueAction) :=
  match aget s.pending room_id with
  | none => none
  | some queues =>
    let s1 : RRState := { s with pending := apopKey s.pending room_id }
    if queues = [] then some (s1, [])
    else
      let s2 := schedule_rr_flush_for_room s1 room_id queues.length
      some (s2, queues.map (fun q => QueueAction.flushReceiptsForRoom q room_id))

/-- Fire one due timer: run its `_flush_rrs_for_room` callback and collect
the queue calls it makes. -/
def fire_one (acc : RRState × List QueueAction) (p : Nat × String) :
    RRState × List QueueAction :=
  match flush_rrs_for_room acc.1 p.2 with
  | none => acc
  | some sa => (sa.1, acc.2 ++ sa.2)

/-- Advance the clock to `t`, firing every timer due by then (one-shot:
due timers are removed from the list before their callbacks run). -/
def advance_to (s : RRState) (t : Nat) : RRState × List QueueAction :=
  let due := s.timers.filter (fun p => p.1 ≤ t)
  let s1 : RRState := { s with now := t,
                               timers := s.timers.filter (fun p => t < p.1) }
  due.foldl fire_one (s1, [])

/-- One timed arrival: advance the clock to `t` (firing due timers), then
run `send_read_receipt` for the arriving receipt. -/
def rr_step (server_name : String) (resolver : String → List String)
    (s : RRState) (t : Nat) (receipt : ReadReceipt) :
    RRState × List QueueAction :=
  let r1 := advance_to s t
  let r2 := send_read_receipt server_name resolver r1.1 receipt
  (r2.1, r1.2 ++ r2.2)

/-- Run a timed sequence of receipt arrivals, returning the final state and
the queue calls made per arrival. -/
def rr_run (server_name : String) (resolver : String → List String) :
    RRState → List (Nat × ReadReceipt) → RRState × List (List QueueAction)
  | s, [] => (s, [])
  | s, a :: rest =>
    let r1 := rr_step server_name resolver s a.1 a.2
    let r2 := rr_run server_name resolver r1.1 rest
    (r2.1, r1.2 :: r2.2)

/-- A concrete EDU addressed to the local server "s1", used to exercise
`send_edu` without the `build_and_send_edu` self-check. -/
def eduSelf : Edu :=
  { origin := "s1", destination := "s1", edu_type := "m.typing", content := "c" }

/-- A concrete EDU between two distinct servers. -/
def eduC3 : Edu :=
  { origin := "s1", destination := "s2", edu_type := "m.receipt", content := "c" }

/-- A concrete locality test: only users on "s1" are local. -/
def mineW : String → Bool := fun v => v == "@a:s1"

/-- Four presence updates, three of them for the same local user. -/
def stsW : List UserPresenceState :=
  [{ user_id := "@a:s1", state := "A" }, { user_id := "@a:s1", state := "B" },
   { user_id := "@b:s2", state := "X" }, { user_id := "@a:s1", state := "C" }]

/-- A concrete scheduler state with two queues accrued for room "r". -/
def rrW : RRState :=
  { now := 3, interval := 10, pending := [("r", ["s2", "s3"])], timers := [] }

/-- A fresh scheduler state: clock at 0, 10 ms per-domain interval. -/
def rrC6S : RRState :=
  { now := 0, interval := 10, pending := [], timers := [] }

/-- A concrete read receipt for room "r". -/
def rrRcpt : ReadReceipt :=
  { room_id := "r", receipt_type := "m.read", user_id := "@a:s1",
    event_ids := ["$e"], data := "d" }

theorem avoidsSelf_of_forall {server : String} {as : List QueueAction}
    (h : ∀ a ∈ as, actionDest a ≠ server) : avoidsSelf server as = true := by
  simp only [avoidsSelf, List.all_eq_true, bne_iff_ne, ne_eq]
  exact h

theorem update_token_fp (s : PositionState) (t : Int) :
    (update_token s t).federation_position = t := by
  unfold update_token
  dsimp only
  split <;> rfl

theorem update_token_ack_le (s : PositionState) (t : Int)
    (h : s.last_ack ≤ t) : (update_token s t).last_ack ≤ t := by
  unfold update_token
  dsimp only
  split
  · exact le_refl t
  · exact h

/-- C1 (counterexample): calling `update_token` with 100 and then with the
smaller token 95 leaves `last_ack = 100 > 95 = federation_position`, and the
value returned by `get_current_token` has decreased from 100 to 95; the
claimed invariant and monotonicity both fail when a call supplies a token
smaller than the current position. -/
theorem C1_counterexample :
    ¬ ((run_update_tokens ⟨0, 0⟩ [100, 95]).last_ack ≤
        (run_update_tokens ⟨0, 0⟩ [100, 95]).federation_position) ∧
    get_current_token (run_update_tokens ⟨0, 0⟩ [100, 95]) <
      get_current_token (run_update_tokens ⟨0, 0⟩ [100]) := by
  decide

/-- C1 (amended): provided the supplied tokens never decrease (each token is
at least the current `federation_position`, which replication guarantees),
every `update_token` run preserves `last_ack ≤ federation_position` and the
value of `get_current_token` never decreases.  Without that proviso a
smaller token overwrites `federation_position` unconditionally, as the
counterexample shows. -/
theorem C1_position_tracking (s : PositionState) (ts : List Int)
    (hinv : s.last_ack ≤ s.federation_position)
    (hmono : List.Chain' (· ≤ ·) (s.federation_position :: ts)) :
    (run_update_tokens s ts).last_ack ≤
      (run_update_tokens s ts).federation_position ∧
    get_current_token s ≤ get_current_token (run_update_tokens s ts) := by
  induction ts generalizing s with
  | nil => exact ⟨hinv, le_refl _⟩
  | cons t rest ih =>
    rw [List.chain'_cons] at hmono
    obtain ⟨hfpt, hchain⟩ := hmono
    have hrun : run_update_tokens s (t :: rest) =
        run_update_tokens (update_token s t) rest := rfl
    have hfp := update_token_fp s t
    have hla : (update_token s t).last_ack ≤ (update_token s t).federation_position := by
      rw [hfp]
      exact update_token_ack_le s t (le_trans hinv hfpt)
    have hchain1 : List.Chain' (· ≤ ·)
        ((update_token s t).federation_position :: rest) := by
      rw [hfp]
      exact hchain
    obtain ⟨h1, h2⟩ := ih (update_token s t) hla hchain1
    refine ⟨by rw [hrun]; exact h1, ?_⟩
    rw [hrun]
    refine le_trans ?_ h2
    unfold get_current_token
    rw [hfp]
    exact hfpt

/-- Witness for `C1_position_tracking` on a concrete non-decreasing run. -/
theorem C1_position_tracking_witness :
    (run_update_tokens ⟨0, 0⟩ [5, 7]).last_ack ≤
      (run_update_tokens ⟨0, 0⟩ [5, 7]).federation_position ∧
    get_current_token (⟨0, 0⟩ : PositionState) ≤
      get_current_token (run_update_tokens ⟨0, 0⟩ [5, 7]) :=
  C1_position_tracking ⟨0, 0⟩ [5, 7] (by decide)
    (by norm_num [List.chain'_cons])

/-- C3 (counterexample): with the falsy key `0`, `send_edu` dispatches via
the unkeyed `send_edu` queue method, not via `send_keyed_edu` as the claim
requires for every given key: the Python guard is `if key:` (truthiness),
not `if key is not None:`. -/
theorem C3_counterexample :
    send_edu eduC3 (some (PyKey.int 0)) =
      [QueueAction.enqueueEdu "s2" eduC3] ∧
    send_edu eduC3 (some (PyKey.int 0)) ≠
      [QueueAction.enqueueKeyedEdu "s2" eduC3 (PyKey.int 0)] := by
  decide

/-- C3 (amended): `send_edu(edu, key)` dispatches via `enqueueKeyedEdu` on
the destination's queue exactly when the key is given and truthy; an absent
key or a given-but-falsy key (such as `0` or `""`) dispatches via
`enqueueEdu`. -/
theorem C3_keyed_edu_dispatch (edu : Edu) (k : PyKey) :
    (pyTruthy k = true →
      send_edu edu (some k) =
        [QueueAction.enqueueKeyedEdu edu.destination edu k]) ∧
    (pyTruthy k = false →
      send_edu edu (some k) = [QueueAction.enqueueEdu edu.destination edu]) ∧
    send_edu edu none = [QueueAction.enqueueEdu edu.destination edu] := by
  refine ⟨?_, ?_, rfl⟩
  · intro h
    simp [send_edu, h]
  · intro h
    simp [send_edu, h]

/-- Witness for `C3_keyed_edu_dispatch`: a truthy key is dispatched keyed. -/
theorem C3_keyed_edu_dispatch_witness :
    send_edu eduC3 (some (PyKey.int 7)) =
      [QueueAction.enqueueKeyedEdu eduC3.destination eduC3 (PyKey.int 7)] :=
  (C3_keyed_edu_dispatch eduC3 (PyKey.int 7)).1 (by decide)

/-- C2 (counterexample): with `server_name = "s1"`, calling `send_edu`
directly with an EDU whose destination is `"s1"` does enqueue it on the
queue for `"s1"`: `send_edu` performs no self-check (only
`build_and_send_edu` and the other entry points do). -/
theorem C2_counterexample :
    send_edu eduSelf none = [QueueAction.enqueueEdu "s1" eduSelf] ∧
    avoidsSelf "s1" (send_edu eduSelf none) = false := by
  decide

/-- C2 (amended): every dispatcher operation except `send_edu` filters the
local server out before touching destination queues: `_send_pdu`,
`build_and_send_edu`, `send_read_receipt`, `send_presence_to_destinations`,
`_process_presence_inner`, `send_device_messages` and `wake_destination`
never make a queue call addressed to `server_name`.  `send_edu` itself
enqueues to `edu.destination` unconditionally and relies on its callers to
pre-filter, so an EDU destined to the local server is enqueued (see the
counterexample). -/
theorem C2_self_filter :
    (∀ (s : PduState) (p : String) (dsts : List String),
      avoidsSelf s.server_name (send_pdu s p dsts).2 = true) ∧
    (∀ (server d t c : String) (k : Option PyKey),
      avoidsSelf server (build_and_send_edu server d t c k) = true) ∧
    (∀ (server : String) (resolver : String → List String) (s : RRState)
        (r : ReadReceipt),
      avoidsSelf server (send_read_receipt server resolver s r).2 = true) ∧
    (∀ (up : Bool) (server : String) (sts : List UserPresenceState)
        (dsts : List String),
      avoidsSelf server (send_presence_to_destinations up server sts dsts) = true) ∧
    (∀ (server : String)
        (hss : List (List String × List UserPresenceState)),
      avoidsSelf server (process_presence_inner server hss) = true) ∧
    (∀ server d : String, avoidsSelf server (send_device_messages server d) = true) ∧
    (∀ server d : String, avoidsSelf server (wake_destination server d) = true) := by
  refine ⟨?_, ?_, ?_, ?_, ?_, ?_, ?_⟩
  · intro s p dsts
    apply avoidsSelf_of_forall
    intro a ha
    unfold send_pdu at ha
    dsimp only at ha
    split at ha
    · simp at ha
    · simp only [List.mem_map] at ha
      obtain ⟨d, hd, rfl⟩ := ha
      simp only [pduFilter, List.mem_filter, decide_eq_true_eq] at hd
      exact hd.2
  · intro server d t c k
    apply avoidsSelf_of_forall
    intro a ha
    unfold build_and_send_edu at ha
    split at ha
    · simp at ha
    · rename_i hne
      unfold send_edu at ha
      revert ha
      match k with
      | some kk =>
        dsimp only
        split <;> (intro ha; simp at ha; subst ha; simpa [actionDest] using hne)
      | none =>
        dsimp only
        intro ha
        simp at ha
        subst ha
        simpa [actionDest] using hne
  · intro server resolver s r
    apply avoidsSelf_of_forall
    intro a ha
    unfold send_read_receipt at ha
    dsimp only at ha
    split at ha
    · simp at ha
    · split at ha
      · simp only [List.mem_map] at ha
        obtain ⟨d, hd, rfl⟩ := ha
        simp only [List.mem_filter, decide_eq_true_eq] at hd
        exact hd.2
      · simp only [List.mem_flatMap, List.mem_filter,
          decide_eq_true_eq] at ha
        obtain ⟨d, hd, hmem⟩ := ha
        simp only [List.mem_cons, List.mem_singleton] at hmem
        rcases hmem with rfl | hmem
        · exact hd.2
        · rcases hmem with rfl | hfalse
          · exact hd.2
          · simp at hfalse
  · intro up server sts dsts
    apply avoidsSelf_of_forall
    intro a ha
    unfold send_presence_to_destinations at ha
    split at ha
    · simp at ha
    · simp only [List.mem_filterMap] at ha
      obtain ⟨d, _, hd⟩ := ha
      by_cases hds : d = server
      · simp [hds] at hd
      · simp only [if_neg hds] at hd
        cases hd
        simpa [actionDest] using hds
  · intro server hss
    apply avoidsSelf_of_forall
    intro a ha
    unfold process_presence_inner at ha
    simp only [List.mem_flatMap, List.mem_filterMap] at ha
    obtain ⟨p, _, d, _, hd⟩ := ha
    by_cases hds : d = server
    · simp [hds] at hd
    · simp only [if_neg hds] at hd
      cases hd
      simpa [actionDest] using hds
  · intro server d
    apply avoidsSelf_of_forall
    intro a ha
    unfold send_device_messages at ha
    split at ha
    · simp at ha
    · rename_i hne
      simp at ha
      subst ha
      simpa [actionDest] using hne
  · intro server d
    apply avoidsSelf_of_forall
    intro a ha
    unfold wake_destination at ha
    split at ha
    · simp at ha
    · rename_i hne
      simp at ha
      subst ha
      simpa [actionDest] using hne

theorem send_pdu_order (s : PduState) (p : String) (d : List String) :
    (send_pdu s p d).1.order = s.order + 1 := by
  unfold send_pdu
  dsimp only
  split <;> rfl

theorem send_pdu_server (s : PduState) (p : String) (d : List String) :
    (send_pdu s p d).1.server_name = s.server_name := by
  unfold send_pdu
  dsimp only
  split <;> rfl

theorem filterMap_indicator {l : List String} (hl : l.Nodup) (dd : String)
    (o : Nat) :
    l.filterMap (fun d => if d = dd then some o else none) =
      if dd ∈ l then [o] else [] := by
  induction l with
  | nil => rfl
  | cons x xs ih =>
    rw [List.nodup_cons] at hl
    rw [List.filterMap_cons]
    by_cases hx : x = dd
    · subst hx
      simp [ih hl.2, hl.1]
    · have hne : ¬ dd = x := fun h => hx h.symm
      simp [hx, ih hl.2, List.mem_cons, hne]

theorem pduFilter_nodup (server : String) (dsts : List String) :
    (pduFilter server dsts).Nodup :=
  (List.nodup_dedup dsts).filter _

theorem ordersTo_append (d : String) (l1 l2 : List QueueAction) :
    ordersTo d (l1 ++ l2) = ordersTo d l1 ++ ordersTo d l2 := by
  unfold ordersTo
  exact List.filterMap_append _ _ _

theorem ordersTo_send_pdu (dd : String) (s : PduState) (p : String)
    (dsts : List String) :
    ordersTo dd (send_pdu s p dsts).2 =
      if dd ∈ pduFilter s.server_name dsts then [s.order] else [] := by
  unfold send_pdu
  dsimp only
  split
  · rename_i hemp
    rw [hemp]
    simp [ordersTo]
  · unfold ordersTo
    rw [List.filterMap_map]
    have := filterMap_indicator (pduFilter_nodup s.server_name dsts) dd s.order
    simpa [Function.comp] using this

theorem run_send_pdus_order (s : PduState)
    (calls : List (String × List String)) :
    (run_send_pdus s calls).1.order = s.order + calls.length := by
  induction calls generalizing s with
  | nil => rfl
  | cons c cs ih =>
    show (run_send_pdus (send_pdu s c.1 c.2).1 cs).1.order = _
    rw [ih, send_pdu_order]
    simp [List.length_cons]
    omega

theorem run_send_pdus_order_lb (d : String) (s : PduState)
    (calls : List (String × List String)) :
    ∀ o ∈ ordersTo d (run_send_pdus s calls).2, s.order ≤ o := by
  induction calls generalizing s with
  | nil =>
    intro o ho
    simp [run_send_pdus, ordersTo] at ho
  | cons c cs ih =>
    intro o ho
    show s.order ≤ o
    have hsplit : (run_send_pdus s (c :: cs)).2 =
        (send_pdu s c.1 c.2).2 ++ (run_send_pdus (send_pdu s c.1 c.2).1 cs).2 := rfl
    rw [hsplit, ordersTo_append] at ho
    rcases List.mem_append.mp ho with h1 | h2
    · rw [ordersTo_send_pdu] at h1
      split at h1
      · simp at h1
        omega
      · simp at h1
    · have := ih (send_pdu s c.1 c.2).1 o h2
      rw [send_pdu_order] at this
      omega

/-- C5: across any sequence of `_send_pdu` invocations, the order values
handed to any fixed destination's `send_pdu` are strictly increasing, and
the `_order` counter is bumped once per invocation, including invocations
whose destination set is empty after dropping `server_name`. -/
theorem C5_order_monotonicity (s : PduState)
    (calls : List (String × List String)) (d : String) :
    List.Chain' (· < ·) (ordersTo d (run_send_pdus s calls).2) ∧
    (run_send_pdus s calls).1.order = s.order + calls.length := by
  refine ⟨?_, run_send_pdus_order s calls⟩
  induction calls generalizing s with
  | nil => simp [run_send_pdus, ordersTo]
  | cons c cs ih =>
    have hsplit : (run_send_pdus s (c :: cs)).2 =
        (send_pdu s c.1 c.2).2 ++ (run_send_pdus (send_pdu s c.1 c.2).1 cs).2 := rfl
    rw [hsplit, ordersTo_append]
    rw [List.chain'_append]
    refine ⟨?_, ih (send_pdu s c.1 c.2).1, ?_⟩
    · rw [ordersTo_send_pdu]
      split
      · exact List.chain'_singleton _
      · exact List.chain'_nil
    · intro x hx y hy
      rw [ordersTo_send_pdu] at hx
      have hyl : y ∈ ordersTo d (run_send_pdus (send_pdu s c.1 c.2).1 cs).2 :=
        List.mem_of_mem_head? hy
      have hlb := run_send_pdus_order_lb d (send_pdu s c.1 c.2).1 cs y hyl
      rw [send_pdu_order] at hlb
      split at hx
      · simp at hx
        omega
      · simp at hx

theorem send_pdu_count (s : PduState) (p : String) (d : List String) :
    (send_pdu s p d).1.sent_pdus_destination_dist_count =
      s.sent_pdus_destination_dist_count +
        (if pduFilter s.server_name d = [] then 0 else 1) := by
  unfold send_pdu
  dsimp only
  split
  · simp
  · simp

theorem send_pdu_total (s : PduState) (p : String) (d : List String) :
    (send_pdu s p d).1.sent_pdus_destination_dist_total =
      s.sent_pdus_destination_dist_total +
        (pduFilter s.server_name d).length := by
  unfold send_pdu
  dsimp only
  split
  · rename_i h
    rw [h]
    rfl
  · rfl

/-- C10: over any sequence of `_send_pdu` invocations,
`sent_pdus_destination_dist_count` grows by exactly the number of
invocations whose destination set is non-empty after removing
`server_name`, and `sent_pdus_destination_dist_total` grows by the sum of
the sizes of those sets; an invocation with an empty filtered set changes
neither counter. -/
theorem C10_metrics_exactness (s : PduState)
    (calls : List (String × List String)) :
    (run_send_pdus s calls).1.sent_pdus_destination_dist_count =
      s.sent_pdus_destination_dist_count +
        (calls.filter
          (fun c => !(pduFilter s.server_name c.2).isEmpty)).length ∧
    (run_send_pdus s calls).1.sent_pdus_destination_dist_total =
      s.sent_pdus_destination_dist_total +
        (calls.map (fun c => (pduFilter s.server_name c.2).length)).sum := by
  induction calls generalizing s with
  | nil => exact ⟨rfl, rfl⟩
  | cons c cs ih =>
    have hstep : run_send_pdus s (c :: cs) =
        ((run_send_pdus (send_pdu s c.1 c.2).1 cs).1,
         (send_pdu s c.1 c.2).2 ++ (run_send_pdus (send_pdu s c.1 c.2).1 cs).2) := rfl
    obtain ⟨ihc, iht⟩ := ih (send_pdu s c.1 c.2).1
    rw [send_pdu_server] at ihc iht
    constructor
    · rw [hstep]
      dsimp only
      rw [ihc, send_pdu_count]
      by_cases h : pduFilter s.server_name c.2 = []
      · rw [if_pos h]
        have : (pduFilter s.server_name c.2).isEmpty = true := by
          rw [h]; rfl
        rw [List.filter_cons, this]
        simp
      · rw [if_neg h]
        have : (pduFilter s.server_name c.2).isEmpty = false := by
          rw [List.isEmpty_eq_false_iff_exists_mem]
          rcases List.exists_mem_of_ne_nil _ h with ⟨x, hx⟩
          exact ⟨x, hx⟩
        rw [List.filter_cons, this]
        simp
        omega
    · rw [hstep]
      dsimp only
      rw [iht, send_pdu_total, List.map_cons, List.sum_cons]
      omega

theorem pduDests_send_pdu (s : PduState) (p : String) (dsts : List String) :
    pduDests (send_pdu s p dsts).2 = pduFilter s.server_name dsts := by
  unfold send_pdu
  dsimp only
  split
  · rename_i h
    rw [h]
    rfl
  · unfold pduDests
    rw [List.filterMap_map]
    exact List.filterMap_some _

theorem dedup_filter_dedup (l : List String) (p : String → Bool) :
    ((l.dedup.filter p).dedup) = l.dedup.filter p :=
  List.dedup_eq_self.mpr ((List.nodup_dedup l).filter p)

/-- C4: for every event handled by the fan-out loop, the destinations that
receive `enqueuePdu` are exactly `hostsInRoomAtEvents(room_id,
prev_event_ids)` minus `send_on_behalf_of` (when set) minus `server_name`,
and only when the event is ours or sent on behalf of another server, is
flagged for proactive sending, and the resolver succeeds; otherwise, or
when the remaining set is empty, no `enqueuePdu` is made. -/
theorem C4_fanout_destinations (mine : String → Bool)
    (resolver : String → List String → Except Unit (List String))
    (s : PduState) (e : Event) :
    pduDests (handle_event mine resolver s e).2 =
      handle_event_dests_spec mine resolver s.server_name e := by
  unfold handle_event handle_event_dests_spec
  cases hsob : e.send_on_behalf_of with
  | none =>
    cases hm : mine e.sender with
    | false => simp [hsob, hm, pduDests]
    | true =>
      cases hp : e.should_proactively_send with
      | false => simp [hsob, hm, hp, pduDests]
      | true =>
        cases hr : resolver e.room_id e.prev_event_ids with
        | error u => simp [hsob, hm, hp, hr, pduDests]
        | ok hosts =>
          simp [hsob, hm, hp, hr, pduDests_send_pdu, pduFilter,
            List.dedup_eq_self.mpr (List.nodup_dedup hosts)]
  | some x =>
    cases hp : e.should_proactively_send with
    | false => simp [hsob, hp, pduDests]
    | true =>
      cases hr : resolver e.room_id e.prev_event_ids with
      | error u => simp [hsob, hp, hr, pduDests]
      | ok hosts =>
        simp [hsob, hp, hr, pduDests_send_pdu, pduFilter,
          dedup_filter_dedup]

theorem aget_cons {α : Type} (p : String × α) (ps : List (String × α))
    (u : String) :
    aget (p :: ps) u = if p.1 = u then some p.2 else aget ps u := rfl

theorem aget_apopKey {α : Type} (m : List (String × α)) (k : String) :
    aget (apopKey m k) k = none := by
  induction m with
  | nil => rfl
  | cons p ps ih =>
    unfold apopKey at ih ⊢
    rw [List.filter_cons]
    by_cases hp : p.1 = k
    · rw [if_neg (by simp [hp])]
      exact ih
    · rw [if_pos (by simp [hp]), aget_cons, if_neg hp]
      exact ih

theorem aget_aset_self {α : Type} (m : List (String × α)) (k : String) (v : α) :
    aget (aset m k v) k = some v := by
  unfold aset
  rw [aget_cons, if_pos rfl]

theorem aget_filter_ne {α : Type} (m : List (String × α)) (k u : String)
    (h : u ≠ k) : aget (m.filter (fun p => p.1 ≠ k)) u = aget m u := by
  induction m with
  | nil => rfl
  | cons p ps ih =>
    rw [List.filter_cons]
    by_cases hp : p.1 = k
    · have hpu : ¬ p.1 = u := by rw [hp]; exact fun he => h he.symm
      rw [if_neg (by simp [hp]), ih, aget_cons, if_neg hpu]
    · rw [if_pos (by simp [hp]), aget_cons, aget_cons, ih]

theorem aget_aset_ne {α : Type} (m : List (String × α)) (k u : String) (v : α)
    (h : u ≠ k) : aget (aset m k v) u = aget m u := by
  unfold aset
  rw [aget_cons, if_neg (fun he => h he.symm)]
  exact aget_filter_ne m k u h

/-- C9: the two singleflight flags serialize their loops.  A
`notify_new_events` while the event loop is running only advances
`_last_poked_id` and starts nothing; the event loop clears
`_is_processing` on every exit path (whatever its body does and whether it
raises or returns); a `send_presence` while a presence batch is running
only merges the new states into `pending_presence` and returns; and a
`send_presence` that does start a batch leaves
`_processing_pending_presence` false on exit whether the inner processing
succeeds or raises. -/
theorem C9_singleflight :
    (∀ (body : EventLoopState → EventLoopState × Except Unit Unit)
        (s : EventLoopState) (current_id : Int),
      s.is_processing = true →
      notify_new_events body s current_id =
        { s with last_poked_id := max current_id s.last_poked_id }) ∧
    (∀ (body : EventLoopState → EventLoopState × Except Unit Unit)
        (s : EventLoopState),
      (process_event_queue_loop body s).1.is_processing = false) ∧
    (∀ (mine : String → Bool) (inner_ok : Bool) (s : PresenceSenderState)
        (states : List UserPresenceState),
      s.processing_pending_presence = true →
      send_presence true mine inner_ok s states =
        ({ s with pending_presence :=
            pending_update mine s.pending_presence states }, [])) ∧
    (∀ (mine : String → Bool) (inner_ok : Bool) (s : PresenceSenderState)
        (states : List UserPresenceState),
      s.processing_pending_presence = false →
      (send_presence true mine inner_ok s states).1.processing_pending_presence =
        false) := by
  refine ⟨?_, ?_, ?_, ?_⟩
  · intro body s current_id h
    unfold notify_new_events
    dsimp only
    rw [if_pos h]
  · intro body s
    rfl
  · intro mine inner_ok s states h
    unfold send_presence
    rw [if_neg (by simp)]
    rw [h]
    rfl
  · intro mine inner_ok s states h
    unfold send_presence
    rw [if_neg (by simp)]
    rw [h]
    dsimp only
    rw [if_neg (by simp)]
    split
    · rfl
    · split <;> rfl

/-- Witness for `C9_singleflight` at concrete states: a re-entry with the
event flag set only bumps the watermark, a loop body that raises still
leaves the flag cleared, a presence re-entry is a pure merge, and a
presence pass whose inner processing raises still clears its flag. -/
theorem C9_singleflight_witness :
    notify_new_events (fun s => (s, Except.error ())) ⟨true, 0⟩ 5 =
      { is_processing := true, last_poked_id := max 5 (0 : Int) } ∧
    (process_event_queue_loop (fun s => (s, Except.error ()))
        ⟨false, 0⟩).1.is_processing = false ∧
    send_presence true (fun _ => true) false ⟨[], true⟩ [] =
      ({ pending_presence := pending_update (fun _ => true) [] [],
         processing_pending_presence := true }, []) ∧
    (send_presence true (fun _ => true) false
        ⟨[], false⟩ []).1.processing_pending_presence = false :=
  ⟨C9_singleflight.1 (fun s => (s, Except.error ())) ⟨true, 0⟩ 5 rfl,
   C9_singleflight.2.1 (fun s => (s, Except.error ())) ⟨false, 0⟩,
   C9_singleflight.2.2.1 (fun _ => true) false ⟨[], true⟩ [] rfl,
   C9_singleflight.2.2.2 (fun _ => true) false ⟨[], false⟩ [] rfl⟩

/-- C7: when the per-room flush timer fires, the room's pending entry is
removed; with no accrued queues the cycle stops (no timer re-armed, no
flush calls); with `k` accrued queues a new timer is armed
`interval × k` ms from now, a fresh empty pending set is installed, and
`flush_read_receipts_for_room` is called on each of the `k` queues. -/
theorem C7_flush_cycle (s : RRState) (room : String) (qs : List String)
    (h : aget s.pending room = some qs) :
    (qs = [] →
      flush_rrs_for_room s room =
        some ({ s with pending := apopKey s.pending room }, [])) ∧
    (qs ≠ [] →
      flush_rrs_for_room s room =
        some ({ s with
                 pending := aset (apopKey s.pending room) room [],
                 timers := s.timers ++ [(s.now + s.interval * qs.length, room)] },
              qs.map (fun q => QueueAction.flushReceiptsForRoom q room))) ∧
    aget (apopKey s.pending room) room = none ∧
    aget (aset (apopKey s.pending room) room []) room = some [] := by
  refine ⟨?_, ?_, aget_apopKey s.pending room, aget_aset_self _ room []⟩
  · intro hq
    unfold flush_rrs_for_room
    rw [h]
    dsimp only
    rw [if_pos hq]
  · intro hq
    unfold flush_rrs_for_room
    rw [h]
    dsimp only
    rw [if_neg hq]
    rfl

/-- Witness for `C7_flush_cycle`: firing the timer for room "r" with two
accrued queues re-arms for `10 × 2` ms, resets the pending set and
flushes both queues. -/
theorem C7_flush_cycle_witness :
    flush_rrs_for_room rrW "r" =
      some ({ rrW with
               pending := aset (apopKey rrW.pending "r") "r" [],
               timers := rrW.timers ++
                 [(rrW.now + rrW.interval * (["s2", "s3"] : List String).length, "r")] },
            (["s2", "s3"] : List String).map
              (fun q => QueueAction.flushReceiptsForRoom q "r")) :=
  (C7_flush_cycle rrW "r" ["s2", "s3"] (by decide)).2.1 (by decide)

theorem pending_update_cons (mine : String → Bool)
    (m : List (String × UserPresenceState)) (st : UserPresenceState)
    (rest : List UserPresenceState) :
    pending_update mine m (st :: rest) =
      pending_update mine
        (if mine st.user_id then aset m st.user_id st else m) rest := rfl

theorem aget_pending_update_not_mine (mine : String → Bool)
    (sts : List UserPresenceState) (u : String) (hu : mine u = false) :
    ∀ m, aget (pending_update mine m sts) u = aget m u := by
  induction sts with
  | nil => intro m; rfl
  | cons st rest ih =>
    intro m
    rw [pending_update_cons, ih]
    by_cases h : mine st.user_id = true
    · rw [if_pos h]
      refine aget_aset_ne _ _ _ _ ?_
      intro he
      rw [← he, hu] at h
      cases h
    · rw [if_neg h]

theorem aget_pending_update_mine (mine : String → Bool)
    (u : String) (hu : mine u = true) :
    ∀ (sts : List UserPresenceState) (m : List (String × UserPresenceState)),
      ((sts.filter (fun x => x.user_id = u)) = [] →
        aget (pending_update mine m sts) u = aget m u) ∧
      (∀ st, (sts.filter (fun x => x.user_id = u)).getLast? = some st →
        aget (pending_update mine m sts) u = some st) := by
  intro sts
  induction sts with
  | nil =>
    intro m
    exact ⟨fun _ => rfl, fun st h => by simp at h⟩
  | cons st0 rest ih =>
    intro m
    rw [List.filter_cons]
    constructor
    · intro hemp
      by_cases hx : st0.user_id = u
      · rw [if_pos (by simp [hx])] at hemp
        cases hemp
      · rw [if_neg (by simp [hx])] at hemp
        rw [pending_update_cons]
        by_cases hm : mine st0.user_id = true
        · rw [if_pos hm]
          rw [(ih (aset m st0.user_id st0)).1 hemp]
          exact aget_aset_ne _ _ _ _ (fun he => hx he.symm)
        · rw [if_neg hm]
          exact (ih m).1 hemp
    · intro st hlast
      rw [pending_update_cons]
      by_cases hx : st0.user_id = u
      · have hmst : mine st0.user_id = true := by rw [hx]; exact hu
        rw [if_pos hmst]
        rw [if_pos (by simp [hx])] at hlast
        cases hfr : rest.filter (fun x => x.user_id = u) with
        | nil =>
          rw [hfr] at hlast
          have hst : st0 = st := by simpa using hlast
          rw [(ih (aset m st0.user_id st0)).1 hfr]
          rw [hx, aget_aset_self, hst]
        | cons y ys =>
          rw [hfr, List.getLast?_cons_cons] at hlast
          exact (ih (aset m st0.user_id st0)).2 st (by rw [hfr]; exact hlast)
      · rw [if_neg (by simp [hx])] at hlast
        by_cases hm : mine st0.user_id = true
        · rw [if_pos hm]
          exact (ih (aset m st0.user_id st0)).2 st hlast
        · rw [if_neg hm]
          exact (ih m).2 st hlast

theorem keys_aset_sublist {α : Type} (m : List (String × α)) (k : String)
    (v : α) (hnd : (m.map Prod.fst).Nodup) :
    ((aset m k v).map Prod.fst).Nodup := by
  unfold aset
  rw [List.map_cons, List.nodup_cons]
  constructor
  · intro hmem
    rw [List.mem_map] at hmem
    obtain ⟨p, hp, hpk⟩ := hmem
    rw [List.mem_filter] at hp
    have := hp.2
    simp only [decide_eq_true_eq] at this
    exact this hpk
  · exact hnd.sublist (List.Sublist.map Prod.fst (List.filter_sublist m))

theorem wf_aset (m : List (String × UserPresenceState))
    (hwf : ∀ p ∈ m, p.2.user_id = p.1) (st : UserPresenceState) :
    ∀ p ∈ aset m st.user_id st, p.2.user_id = p.1 := by
  intro p hp
  unfold aset at hp
  rw [List.mem_cons] at hp
  rcases hp with rfl | hp
  · rfl
  · exact hwf p (List.mem_of_mem_filter hp)

theorem pending_update_nodup (mine : String → Bool)
    (sts : List UserPresenceState) :
    ∀ m, (m.map Prod.fst).Nodup →
      ((pending_update mine m sts).map Prod.fst).Nodup := by
  induction sts with
  | nil => intro m h; exact h
  | cons st rest ih =>
    intro m h
    rw [pending_update_cons]
    by_cases hm : mine st.user_id = true
    · rw [if_pos hm]
      exact ih _ (keys_aset_sublist m st.user_id st h)
    · rw [if_neg hm]
      exact ih m h

theorem pending_update_wf (mine : String → Bool)
    (sts : List UserPresenceState) :
    ∀ m, (∀ p ∈ m, p.2.user_id = p.1) →
      ∀ p ∈ pending_update mine m sts, p.2.user_id = p.1 := by
  induction sts with
  | nil => intro m h; exact h
  | cons st rest ih =>
    intro m h
    rw [pending_update_cons]
    by_cases hm : mine st.user_id = true
    · rw [if_pos hm]
      exact ih _ (wf_aset m h st)
    · rw [if_neg hm]
      exact ih m h

theorem values_filter_eq (u : String) :
    ∀ (m : List (String × UserPresenceState)),
      (∀ p ∈ m, p.2.user_id = p.1) → ((m.map Prod.fst).Nodup) →
      (m.map Prod.snd).filter (fun x => x.user_id = u) =
        match aget m u with
        | some v => [v]
        | none => [] := by
  intro m
  induction m with
  | nil => intro _ _; rfl
  | cons p ps ih =>
    intro hwf hnd
    rw [List.map_cons, List.filter_cons, aget_cons]
    rw [List.map_cons, List.nodup_cons] at hnd
    have hpu : p.2.user_id = p.1 := hwf p (List.mem_cons_self p ps)
    by_cases hk : p.1 = u
    · rw [if_pos (by simp [hpu, hk]), if_pos hk]
      have hrest : (ps.map Prod.snd).filter (fun x => x.user_id = u) = [] := by
        rw [List.filter_eq_nil_iff]
        intro x hx
        rw [List.mem_map] at hx
        obtain ⟨q, hq, rfl⟩ := hx
        have hqu : q.2.user_id = q.1 := hwf q (List.mem_cons_of_mem p hq)
        simp only [hqu, decide_eq_true_eq]
        intro he
        apply hnd.1
        rw [List.mem_map]
        exact ⟨q, hq, he.trans hk.symm⟩
      rw [hrest]
    · rw [if_neg (by simp [hpu, hk]), if_neg hk]
      exact ih (fun q hq => hwf q (List.mem_cons_of_mem p hq)) hnd.2

/-- C8: `send_presence` merges the incoming states into `pending_presence`
keeping only local users (entries of non-local users are untouched, so the
map never acquires one) with last write wins per `user_id`; a call that
starts a batch drains the merged map in one batch, and that batch carries
exactly the latest state for a user that received several updates before
the batch began. -/
theorem C8_presence_lww (mine : String → Bool) (s : PresenceSenderState)
    (states : List UserPresenceState) (u : String) (st : UserPresenceState)
    (hproc : s.processing_pending_presence = false)
    (hwf : ∀ p ∈ s.pending_presence, p.2.user_id = p.1)
    (hnd : (s.pending_presence.map Prod.fst).Nodup)
    (hu : mine u = true)
    (hlast : (states.filter (fun x => x.user_id = u)).getLast? = some st) :
    (send_presence true mine true s states).2 =
      (if pending_update mine s.pending_presence states = [] then []
       else [(pending_update mine s.pending_presence states).map Prod.snd]) ∧
    (∀ v, mine v = false →
      aget (pending_update mine s.pending_presence states) v =
        aget s.pending_presence v) ∧
    aget (pending_update mine s.pending_presence states) u = some st ∧
    ((pending_update mine s.pending_presence states).map Prod.snd).filter
        (fun x => x.user_id = u) = [st] := by
  have hag : aget (pending_update mine s.pending_presence states) u = some st :=
    (aget_pending_update_mine mine u hu states s.pending_presence).2 st hlast
  refine ⟨?_, ?_, hag, ?_⟩
  · unfold send_presence
    rw [if_neg (by simp)]
    rw [hproc]
    dsimp only
    rw [if_neg (by simp)]
    split
    · rfl
    · rfl
  · intro v hv
    exact aget_pending_update_not_mine mine states v hv s.pending_presence
  · rw [values_filter_eq u (pending_update mine s.pending_presence states)
      (pending_update_wf mine states s.pending_presence hwf)
      (pending_update_nodup mine states s.pending_presence hnd), hag]

/-- Witness for `C8_presence_lww`: after updates A, B, C for "@a:s1" (and
one for a remote user), the pending map holds exactly C for "@a:s1". -/
theorem C8_presence_lww_witness :
    aget (pending_update mineW [] stsW) "@a:s1" =
      some { user_id := "@a:s1", state := "C" } :=
  (C8_presence_lww mineW ⟨[], false⟩ stsW "@a:s1"
    { user_id := "@a:s1", state := "C" } rfl (by simp) (by simp)
    (by decide) (by decide)).2.2.1

theorem advance_to_empty (s : RRState) (t : Nat) (h : s.timers = []) :
    advance_to s t = ({ s with now := t, timers := [] }, []) := by
  unfold advance_to
  rw [h]
  rfl

theorem advance_to_not_due (s : RRState) (t T : Nat) (room : String)
    (htm : s.timers = [(T, room)]) (hlt : t < T) :
    advance_to s t = ({ s with now := t, timers := [(T, room)] }, []) := by
  unfold advance_to
  rw [htm]
  have h1 : ((T, room) :: ([] : List (Nat × String))).filter
      (fun p => p.1 ≤ t) = [] := by
    simp [Nat.not_le.mpr hlt]
  have h2 : ((T, room) :: ([] : List (Nat × String))).filter
      (fun p => t < p.1) = [(T, room)] := by
    simp [hlt]
  rw [h1, h2]
  rfl

theorem send_read_receipt_first (server : String)
    (resolver : String → List String) (s : RRState) (r : ReadReceipt)
    (hpend : aget s.pending r.room_id = none)
    (hdom : (resolver r.room_id).filter (fun d => d ≠ server) ≠ []) :
    send_read_receipt server resolver s r =
      ({ s with
          timers := s.timers ++
            [(s.now + s.interval *
              ((resolver r.room_id).filter (fun d => d ≠ server)).length,
              r.room_id)],
          pending := aset s.pending r.room_id [] },
       ((resolver r.room_id).filter (fun d => d ≠ server)).flatMap
         (fun d => [QueueAction.enqueueReceipt d r,
                    QueueAction.flushReceiptsForRoom d r.room_id])) := by
  unfold send_read_receipt
  dsimp only
  rw [if_neg hdom, hpend]
  rfl

theorem send_read_receipt_pending (server : String)
    (resolver : String → List String) (s : RRState) (r : ReadReceipt)
    (qs : List String)
    (hpend : aget s.pending r.room_id = some qs)
    (hdom : (resolver r.room_id).filter (fun d => d ≠ server) ≠ []) :
    send_read_receipt server resolver s r =
      ({ s with
          pending := aset s.pending r.room_id
            (((resolver r.room_id).filter (fun d => d ≠ server)).foldl setAdd qs) },
       ((resolver r.room_id).filter (fun d => d ≠ server)).map
         (fun d => QueueAction.enqueueReceipt d r)) := by
  unfold send_read_receipt
  dsimp only
  rw [if_neg hdom, hpend]

theorem rr_step_first (server : String) (resolver : String → List String)
    (s : RRState) (t0 : Nat) (r0 : ReadReceipt) (room : String)
    (hroom : r0.room_id = room)
    (htimers : s.timers = []) (hpend : aget s.pending room = none)
    (hdom : (resolver room).filter (fun d => d ≠ server) ≠ []) :
    rr_step server resolver s t0 r0 =
      ({ s with
          now := t0,
          timers := [(t0 + s.interval *
            ((resolver room).filter (fun d => d ≠ server)).length, room)],
          pending := aset s.pending room [] },
       ((resolver room).filter (fun d => d ≠ server)).flatMap
         (fun d => [QueueAction.enqueueReceipt d r0,
                    QueueAction.flushReceiptsForRoom d room])) := by
  unfold rr_step
  rw [advance_to_empty s t0 htimers]
  dsimp only
  rw [send_read_receipt_first server resolver _ r0 (by rw [hroom]; exact hpend)
    (by rw [hroom]; exact hdom)]
  rw [hroom]
  rfl

theorem rr_step_pending (server : String) (resolver : String → List String)
    (s : RRState) (t : Nat) (r : ReadReceipt) (room : String) (T : Nat)
    (qs : List String)
    (hroom : r.room_id = room)
    (htimers : s.timers = [(T, room)]) (hlt : t < T)
    (hpend : aget s.pending room = some qs)
    (hdom : (resolver room).filter (fun d => d ≠ server) ≠ []) :
    rr_step server resolver s t r =
      ({ s with
          now := t,
          timers := [(T, room)],
          pending := aset s.pending room
            (((resolver room).filter (fun d => d ≠ server)).foldl setAdd qs) },
       ((resolver room).filter (fun d => d ≠ server)).map
         (fun d => QueueAction.enqueueReceipt d r)) := by
  unfold rr_step
  rw [advance_to_not_due s t T room htimers hlt]
  dsimp only
  rw [send_read_receipt_pending server resolver _ r qs
    (by rw [hroom]; exact hpend) (by rw [hroom]; exact hdom)]
  rw [hroom]
  rfl

theorem rr_run_armed (server : String) (resolver : String → List String)
    (room : String) (T : Nat)
    (hdom : (resolver room).filter (fun d => d ≠ server) ≠ []) :
    ∀ (rest : List (Nat × ReadReceipt)) (s : RRState),
      s.timers = [(T, room)] →
      (∃ qs, aget s.pending room = some qs) →
      (∀ p ∈ rest, (p.2 : ReadReceipt).room_id = room ∧ p.1 < T) →
      (rr_run server resolver s rest).1.timers = [(T, room)] ∧
      (∃ qs, aget (rr_run server resolver s rest).1.pending room = some qs) ∧
      (∀ l ∈ (rr_run server resolver s rest).2, ∀ a ∈ l,
        isFlushAction a = false) := by
  intro rest
  induction rest with
  | nil =>
    intro s h1 h2 _
    refine ⟨h1, h2, ?_⟩
    intro l hl
    cases hl
  | cons a rest ih =>
    intro s h1 h2 h3
    obtain ⟨qs, hqs⟩ := h2
    obtain ⟨haroom, halt⟩ := h3 a (List.mem_cons_self a rest)
    have hstep := rr_step_pending server resolver s a.1 a.2 room T qs
      haroom h1 halt hqs hdom
    have hrun : rr_run server resolver s (a :: rest) =
        ((rr_run server resolver (rr_step server resolver s a.1 a.2).1 rest).1,
         (rr_step server resolver s a.1 a.2).2 ::
           (rr_run server resolver (rr_step server resolver s a.1 a.2).1 rest).2) := rfl
    rw [hrun, hstep]
    dsimp only
    have hnext := ih ({ s with
        now := a.1,
        timers := [(T, room)],
        pending := aset s.pending room
          (((resolver room).filter (fun d => d ≠ server)).foldl setAdd qs) })
      rfl ⟨_, aget_aset_self _ room _⟩
      (fun p hp => h3 p (List.mem_cons_of_mem a hp))
    refine ⟨hnext.1, hnext.2.1, ?_⟩
    intro l hl
    rcases List.mem_cons.mp hl with rfl | hl
    · intro x hx
      rw [List.mem_map] at hx
      obtain ⟨d, _, rfl⟩ := hx
      rfl
    · exact hnext.2.2 l hl

/-- C6: for a room whose resolver yields D remote domains, after a first
receipt at time `t0` a burst of further receipts all earlier than
`t0 + interval × D` arms exactly one timer (armed by the first receipt, due
at `t0 + interval × D`), the room's pending entry exists after the first
receipt and at every later point of the window, the first receipt triggers
the immediate per-domain enqueue-and-flush, and no later arrival and no
timer firing produces any `flush_read_receipts_for_room` call during the
window. -/
theorem C6_receipt_window (server : String) (resolver : String → List String)
    (s : RRState) (room : String) (t0 : Nat) (r0 : ReadReceipt)
    (rest : List (Nat × ReadReceipt))
    (hroom0 : r0.room_id = room)
    (hrest : ∀ p ∈ rest, (p.2 : ReadReceipt).room_id = room ∧
      p.1 < t0 + s.interval *
        ((resolver room).filter (fun d => d ≠ server)).length)
    (hdom : (resolver room).filter (fun d => d ≠ server) ≠ [])
    (htimers : s.timers = [])
    (hpend : aget s.pending room = none) :
    (rr_run server resolver s ((t0, r0) :: rest)).1.timers =
      [(t0 + s.interval *
        ((resolver room).filter (fun d => d ≠ server)).length, room)] ∧
    (∀ n : Nat, ∃ qs,
      aget (rr_run server resolver s ((t0, r0) :: rest.take n)).1.pending
        room = some qs) ∧
    (rr_run server resolver s ((t0, r0) :: rest)).2.head? =
      some (((resolver room).filter (fun d => d ≠ server)).flatMap
        (fun d => [QueueAction.enqueueReceipt d r0,
                   QueueAction.flushReceiptsForRoom d room])) ∧
    (∀ l ∈ (rr_run server resolver s ((t0, r0) :: rest)).2.tail,
      ∀ a ∈ l, isFlushAction a = false) := by
  have hstep := rr_step_first server resolver s t0 r0 room hroom0 htimers
    hpend hdom
  have hrun : ∀ tl : List (Nat × ReadReceipt),
      rr_run server resolver s ((t0, r0) :: tl) =
        ((rr_run server resolver (rr_step server resolver s t0 r0).1 tl).1,
         (rr_step server resolver s t0 r0).2 ::
           (rr_run server resolver (rr_step server resolver s t0 r0).1 tl).2) :=
    fun tl => rfl
  have harmed : ∀ tl : List (Nat × ReadReceipt),
      (∀ p ∈ tl, (p.2 : ReadReceipt).room_id = room ∧
        p.1 < t0 + s.interval *
          ((resolver room).filter (fun d => d ≠ server)).length) →
      (rr_run server resolver (rr_step server resolver s t0 r0).1 tl).1.timers =
        [(t0 + s.interval *
          ((resolver room).filter (fun d => d ≠ server)).length, room)] ∧
      (∃ qs, aget
        (rr_run server resolver (rr_step server resolver s t0 r0).1 tl).1.pending
        room = some qs) ∧
      (∀ l ∈ (rr_run server resolver (rr_step server resolver s t0 r0).1 tl).2,
        ∀ a ∈ l, isFlushAction a = false) := by
    intro tl htl
    refine rr_run_armed server resolver room _ hdom tl _ ?_ ?_ htl
    · rw [hstep]
    · rw [hstep]
      exact ⟨_, aget_aset_self _ room _⟩
  refine ⟨?_, ?_, ?_, ?_⟩
  · rw [hrun rest]
    exact (harmed rest hrest).1
  · intro n
    rw [hrun (rest.take n)]
    exact (harmed (rest.take n)
      (fun p hp => hrest p ((List.take_sublist n rest).subset hp))).2.1
  · rw [hrun rest, hstep]
    rfl
  · rw [hrun rest]
    exact fun l hl => (harmed rest hrest).2.2 l hl

/-- Witness for `C6_receipt_window`: one domain ("s2"), interval 10 ms,
receipts at t = 0 and t = 5 (within the 10 ms window): exactly the one
timer armed at t = 10 remains. -/
theorem C6_receipt_window_witness :
    (rr_run "s1" (fun _ => ["s2"]) rrC6S ((0, rrRcpt) :: [(5, rrRcpt)])).1.timers =
      [(0 + rrC6S.interval *
        ((["s2"] : List String).filter (fun d => d ≠ "s1")).length, "r")] :=
  (C6_receipt_window "s1" (fun _ => ["s2"]) rrC6S "r" 0 rrRcpt [(5, rrRcpt)]
    rfl (by decide) (by decide) rfl rfl).1

end Synapse
